import Mathlib

/-!
Verification of the portfolio-optimization core of the
quantum-portfolio-optimizer repository.

The Python source is shallowly embedded in Lean:
vectors are lists of rationals, matrices are lists of rows, floating-point
arithmetic is idealized as exact rational arithmetic, and the external
market-data capability (yfinance) is a parameter of the functions that use
it.  Square roots (used only for reporting the portfolio "risk") are kept as
the radicand; where a claim speaks about the risk itself we state it through
Real.sqrt of the stored radicand.
-/

namespace QuantumPortfolio

/-! ### Basic linear algebra on lists (NumPy dot products) -/

/-- Dot product of two vectors, as in np.dot for 1-d arrays. -/
def dot (a b : List ℚ) : ℚ := (List.zipWith (· * ·) a b).sum

/-- Matrix-vector product np.dot(m, v): each row dotted with v. -/
def matVec (m : List (List ℚ)) (v : List ℚ) : List ℚ := m.map (fun row => dot row v)

/-- The 0/1 indicator vector of length n of a set of indices
(the x built by x = np.zeros(n); for i in indices: x[i] = 1). -/
def indicator (n : ℕ) (c : List ℕ) : List ℚ :=
  (List.range n).map (fun i => if i ∈ c then (1 : ℚ) else 0)

/-- Objective of Qiskit's PortfolioOptimization formulation used by the code:
risk_factor * xᵀ·sigma·x − (1 − risk_factor) * muᵀ·x. -/
def portfolio_objective (mu : List ℚ) (sigma : List (List ℚ)) (risk_factor : ℚ)
    (x : List ℚ) : ℚ :=
  risk_factor * dot x (matVec sigma x) - (1 - risk_factor) * dot mu x

/-! ### itertools.combinations -/

/-- Combinations of the elements of a list taken k at a time, in the order
produced by itertools.combinations: lexicographic over positions. -/
def combinationsAux : List ℕ → ℕ → List (List ℕ)
  | _, 0 => [[]]
  | [], _ + 1 => []
  | i :: rest, k + 1 =>
      (combinationsAux rest k).map (fun c => i :: c) ++ combinationsAux rest (k + 1)

/-- itertools.combinations(range(n), k). -/
def combinations (n k : ℕ) : List (List ℕ) := combinationsAux (List.range n) k

/-! ### classical_optimizer.run_classical_numpy -/

/-- Mirror of quantum_optimizer.OptimizationResult, restricted to the fields
with exact content.  weights is the dict i ↦ weight as a length-n list;
risk_sq carries the radicand of the reported risk (the source stores
sqrt(risk_sq)); computation_time_ms is wall-clock time and is not modelled. -/
structure OptimizationResult where
  selected_indices : List ℕ
  weights : List ℚ
  objective_value : ℚ
  expected_return : ℚ
  risk_sq : ℚ
  method_used : String
  probability_distribution : List (String × ℚ)
  convergence_history : List ℚ
  deriving Repr, DecidableEq

/-- The enumeration loop of run_classical_numpy: best_obj starts at np.inf
(modelled as none) and a candidate replaces the incumbent only when its
objective is strictly smaller. -/
def foldBest (f : List ℕ → ℚ) : Option (ℚ × List ℕ) → List (List ℕ) → Option (ℚ × List ℕ)
  | acc, [] => acc
  | acc, c :: rest =>
      match acc with
      | none => foldBest f (some (f c, c)) rest
      | some (b, bx) =>
          if f c < b then foldBest f (some (f c, c)) rest
          else foldBest f (some (b, bx)) rest

/-- classical_optimizer.run_classical_numpy.  Returns none exactly when the
combination list is empty (budget > n), where the source would return a
degenerate result whose objective is the initial np.inf, a value with no
rational counterpart.  On every input the claims quantify over
(1 ≤ budget < n) the combination list is non-empty and the result is some. -/
def run_classical_numpy (mu : List ℚ) (sigma : List (List ℚ)) (risk_factor : ℚ)
    (budget : ℕ) : Option OptimizationResult :=
  let n := mu.length
  let obj : List ℕ → ℚ := fun c => portfolio_objective mu sigma risk_factor (indicator n c)
  match foldBest obj none (combinations n budget) with
  | none => none
  | some (best_obj, best_c) =>
      let x := indicator n best_c
      let selected := (List.range n).filter (fun i => (1 : ℚ) / 2 ≤ x.getD i 0)
      let k := selected.length
      let weights := (List.range n).map
        (fun i => if i ∈ selected then (1 : ℚ) / k else 0)
      let ret_val : ℚ := if k ≠ 0 then (selected.map (fun i => mu.getD i 0)).sum / k else 0
      let w_vec := (List.range n).map (fun i => if i ∈ selected then (1 : ℚ) / k else 0)
      let risk_sq := dot w_vec (matVec sigma w_vec)
      let bitstring := String.join ((List.range n).map
        (fun i => if (1 : ℚ) / 2 ≤ x.getD i 0 then "1" else "0"))
      some
        { selected_indices := selected
          weights := weights
          objective_value := best_obj
          expected_return := ret_val
          risk_sq := risk_sq
          method_used := "Classical (exact)"
          probability_distribution := [(bitstring, 1)]
          convergence_history := [] }

/-! ### app.api_risk_return: frontier enumeration and Pareto filter -/

/-- One frontier candidate, as the dict literal built in api_risk_return.
The source stores risk = sqrt(var); we carry the radicand var, and claims
about the risk itself go through Real.sqrt var.  Since sqrt is strictly
monotone on non-negative reals, sorting by var below is the same order the
source obtains by sorting on risk. -/
structure KPoint where
  var : ℚ
  ret : ℚ
  deriving Repr, DecidableEq

/-- Sort key of frontier.sort(key = fun p => (p.risk, -p.ret)): ascending on
the risk coordinate, ties broken by descending return. -/
def keyLE {α : Type} (riskOf retOf : α → ℚ) (p q : α) : Prop :=
  riskOf p < riskOf q ∨ (riskOf p = riskOf q ∧ retOf q ≤ retOf p)

instance {α : Type} (riskOf retOf : α → ℚ) : DecidableRel (keyLE riskOf retOf) := by
  intro p q
  unfold keyLE
  infer_instance

/-- The Pareto scan of api_risk_return: walk the sorted candidates, keep a
point exactly when its return strictly exceeds the running maximum best_ret. -/
def paretoScan {α : Type} (retOf : α → ℚ) : ℚ → List α → List α
  | _, [] => []
  | best, p :: rest =>
      if best < retOf p then p :: paretoScan retOf (retOf p) rest
      else paretoScan retOf best rest

/-- Sort ascending on the risk coordinate (ties: descending return), then
scan with the running-maximum filter started at best_ret = -1e9. -/
def pareto_filter {α : Type} (riskOf retOf : α → ℚ) (l : List α) : List α :=
  paretoScan retOf (-(10 ^ 9 : ℚ)) (List.insertionSort (keyLE riskOf retOf) l)

/-- The equal-weight vector of api_risk_return: weights[i] = 1/k on the
combination, 0 elsewhere. -/
def eq_weights (n k : ℕ) (combo : List ℕ) : List ℚ :=
  (List.range n).map (fun i => if i ∈ combo then (1 : ℚ) / k else 0)

/-- The frontier candidates of api_risk_return: for every k in range(1, n)
and every k-combination, the equal-weight portfolio's (risk, return) point. -/
def frontier_points (mu : List ℚ) (sigma : List (List ℚ)) : List KPoint :=
  let n := mu.length
  (List.range' 1 (n - 1)).flatMap (fun k =>
    (combinations n k).map (fun combo =>
      KPoint.mk (dot (eq_weights n k combo) (matVec sigma (eq_weights n k combo)))
        (dot (eq_weights n k combo) mu)))

/-- The efficientFrontier list returned by api_risk_return. -/
def efficient_frontier (mu : List ℚ) (sigma : List (List ℚ)) : List KPoint :=
  pareto_filter KPoint.var KPoint.ret (frontier_points mu sigma)

/-! ### data_fetcher.DataFetcher covariance cache -/

/-- One entry of DataFetcher._cov_cache: key ↦ (mu, sigma, timestamp). -/
structure CovEntry where
  mu : List ℚ
  sigma : List (List ℚ)
  ts : ℚ
  deriving Repr, DecidableEq

/-- DataFetcher._cov_cache, as an association list whose head shadows older
entries (dict assignment semantics for lookup). -/
abbrev CovCache := List (String × CovEntry)

/-- DataFetcher._is_stale: (time.time() - cached_at) > self.cache_ttl. -/
def is_stale (cache_ttl now cached_at : ℚ) : Bool := decide (now - cached_at > cache_ttl)

/-- Cache key of get_expected_returns_and_covariance: ",".join(sorted(symbols)). -/
def cov_cache_key (symbols : List String) : String :=
  String.intercalate "," (List.insertionSort (· ≤ ·) symbols)

/-- Lookup in the association-list model of the dict. -/
def cache_lookup (key : String) : List (String × CovEntry) → Option CovEntry
  | [] => none
  | (k, e) :: rest => if k = key then some e else cache_lookup key rest

/-- np.eye(n) * c. -/
def scaled_identity (n : ℕ) (c : ℚ) : List (List ℚ) :=
  (List.range n).map (fun i => (List.range n).map (fun j => if i = j then c else 0))

/-- DataFetcher.get_expected_returns_and_covariance.  The body of the try
block (yfinance download, pandas alignment, annualization, PSD correction) is
an external effect, passed in as computed: none models any exception raised
inside the try (no usable series, fewer than 2 aligned rows, network error),
some (mu, sigma) models the successfully computed, corrected statistics.
Returns ((mu, sigma), new cache state, whether the fetch path ran); the
Python function always returns normally because the except clause swallows
every exception, which is why the embedding is a total function. -/
def get_expected_returns_and_covariance (cache_ttl : ℚ) (cache : CovCache) (now : ℚ)
    (symbols : List String) (use_cache : Bool)
    (computed : Option (List ℚ × List (List ℚ))) :
    (List ℚ × List (List ℚ)) × CovCache × Bool :=
  let key := cov_cache_key symbols
  let fetchPath : (List ℚ × List (List ℚ)) × CovCache × Bool :=
    match computed with
    | some (mu, sigma) => ((mu, sigma), (key, ⟨mu, sigma, now⟩) :: cache, true)
    | none =>
        ((List.replicate symbols.length 0, scaled_identity symbols.length (4 / 100)),
          cache, true)
  match (if use_cache then cache_lookup key cache else none) with
  | some e =>
      if is_stale cache_ttl now e.ts then fetchPath else ((e.mu, e.sigma), cache, false)
  | none => fetchPath

/-! ### app.api_optimize: objective gap -/

/-- The objectiveGap computation of api_optimize: None unless a variational
result is present and the exact objective is non-zero, otherwise the relative
gap (quantum − classical) / |classical|. -/
def objective_gap (classical_obj : ℚ) (quantum_obj : Option ℚ) : Option ℚ :=
  match quantum_obj with
  | none => none
  | some q => if classical_obj ≠ 0 then some ((q - classical_obj) / |classical_obj|) else none

/-! ### data_fetcher PSD correction (matrix form, for the eigenvalue claim) -/

/-- The PSD correction inside get_expected_returns_and_covariance: when the
minimum eigenvalue reported for sigma is below 1e-8, add the uniform diagonal
shift (1e-8 - min_eig) * I.  The eigenvalue computation itself
(np.linalg.eigvalsh) is numerical; min_eig is a parameter here and the
eigenvalue theorems hypothesize that it is the true minimum eigenvalue. -/
def correct_sigma {n : ℕ} (min_eig : ℚ) (sigma : Matrix (Fin n) (Fin n) ℚ) :
    Matrix (Fin n) (Fin n) ℚ :=
  if min_eig < 1 / 10 ^ 8 then sigma + (1 / 10 ^ 8 - min_eig) • 1 else sigma

/-! ### Lemmas about the enumeration loop -/

theorem foldBest_isSome (f : List ℕ → ℚ) :
    ∀ (l : List (List ℕ)) (b : ℚ) (bx : List ℕ),
      (foldBest f (some (b, bx)) l).isSome := by
  intro l
  induction l with
  | nil => intro b bx; simp [foldBest]
  | cons c rest ih =>
      intro b bx
      simp only [foldBest]
      split
      · exact ih _ _
      · exact ih _ _

/-- Invariant of the strict-improvement loop started from an incumbent:
either the incumbent survives and bounds everything in the list from below,
or the result is the first element of the list that attains the minimum. -/
theorem foldBest_some_spec (f : List ℕ → ℚ) :
    ∀ (l : List (List ℕ)) (b : ℚ) (bx : List ℕ) (b' : ℚ) (bx' : List ℕ),
      foldBest f (some (b, bx)) l = some (b', bx') →
      (b' = b ∧ bx' = bx ∧ ∀ c ∈ l, b ≤ f c) ∨
      (∃ l1 l2, l = l1 ++ bx' :: l2 ∧ b' = f bx' ∧ b' < b ∧
        (∀ c ∈ l1, b' < f c) ∧ (∀ c ∈ l2, b' ≤ f c)) := by
  intro l
  induction l with
  | nil =>
      intro b bx b' bx' h
      simp only [foldBest, Option.some.injEq, Prod.mk.injEq] at h
      exact Or.inl ⟨h.1.symm, h.2.symm, by simp⟩
  | cons c rest ih =>
      intro b bx b' bx' h
      simp only [foldBest] at h
      by_cases hc : f c < b
      · rw [if_pos hc] at h
        rcases ih _ _ _ _ h with ⟨hb, hbx, hall⟩ | ⟨l1, l2, hsplit, hobj, hlt, h1, h2⟩
        · refine Or.inr ⟨[], rest, ?_, ?_, ?_, ?_, ?_⟩
          · simp [hbx]
          · rw [hb, hbx]
          · rw [hb]; exact hc
          · intro x hx; simp at hx
          · intro x hx; rw [hb]; exact hall x hx
        · refine Or.inr ⟨c :: l1, l2, ?_, hobj, lt_trans hlt hc, ?_, h2⟩
          · rw [hsplit]; rfl
          · intro x hx
            rcases List.mem_cons.mp hx with rfl | hx
            · exact hlt
            · exact h1 x hx
      · rw [if_neg hc] at h
        push_neg at hc
        rcases ih _ _ _ _ h with ⟨hb, hbx, hall⟩ | ⟨l1, l2, hsplit, hobj, hlt, h1, h2⟩
        · refine Or.inl ⟨hb, hbx, ?_⟩
          intro x hx
          rcases List.mem_cons.mp hx with rfl | hx
          · exact hc
          · exact hall x hx
        · refine Or.inr ⟨c :: l1, l2, ?_, hobj, hlt, ?_, h2⟩
          · rw [hsplit]; rfl
          · intro x hx
            rcases List.mem_cons.mp hx with rfl | hx
            · exact lt_of_lt_of_le hlt hc
            · exact h1 x hx

/-- Started from np.inf, the loop returns the first minimizer of f on the
list: everything before it is strictly worse, everything after it no better. -/
theorem foldBest_none_spec (f : List ℕ → ℚ) (l : List (List ℕ)) (b' : ℚ) (bx' : List ℕ)
    (h : foldBest f none l = some (b', bx')) :
    ∃ l1 l2, l = l1 ++ bx' :: l2 ∧ b' = f bx' ∧
      (∀ c ∈ l1, b' < f c) ∧ (∀ c ∈ l2, b' ≤ f c) := by
  cases l with
  | nil => simp [foldBest] at h
  | cons c rest =>
      simp only [foldBest] at h
      rcases foldBest_some_spec f rest (f c) c b' bx' h with
        ⟨hb, hbx, hall⟩ | ⟨l1, l2, hsplit, hobj, hlt, h1, h2⟩
      · refine ⟨[], rest, by simp [hbx], by rw [hb, hbx], by simp, ?_⟩
        intro x hx; rw [hb]; exact hall x hx
      · refine ⟨c :: l1, l2, by rw [hsplit]; rfl, hobj, ?_, h2⟩
        intro x hx
        rcases List.mem_cons.mp hx with rfl | hx
        · exact hlt
        · exact h1 x hx

/-- The minimum property alone: the returned value bounds f on the list. -/
theorem foldBest_min (f : List ℕ → ℚ) (l : List (List ℕ)) (b' : ℚ) (bx' : List ℕ)
    (h : foldBest f none l = some (b', bx')) :
    bx' ∈ l ∧ b' = f bx' ∧ ∀ c ∈ l, b' ≤ f c := by
  rcases foldBest_none_spec f l b' bx' h with ⟨l1, l2, hsplit, hobj, h1, h2⟩
  subst hsplit
  refine ⟨by simp, hobj, ?_⟩
  intro c hc
  rcases List.mem_append.mp hc with hc | hc
  · exact le_of_lt (h1 c hc)
  · rcases List.mem_cons.mp hc with rfl | hc
    · exact le_of_eq hobj
    · exact h2 c hc

/-! ### Lemmas about combinations -/

theorem mem_combinationsAux {s : List ℕ} :
    ∀ {l : List ℕ} {k : ℕ}, s ∈ combinationsAux l k ↔ s.length = k ∧ s.Sublist l := by
  intro l
  induction l generalizing s with
  | nil =>
      intro k
      cases k with
      | zero => simp [combinationsAux, List.length_eq_zero, List.sublist_nil, eq_comm]
      | succ k =>
          simp only [combinationsAux, List.not_mem_nil, false_iff, not_and]
          intro hlen hsub
          rw [List.sublist_nil.mp hsub] at hlen
          simp at hlen
  | cons a t ih =>
      intro k
      cases k with
      | zero =>
          simp only [combinationsAux, List.mem_singleton, List.length_eq_zero]
          constructor
          · rintro rfl; exact ⟨rfl, List.nil_sublist _⟩
          · rintro ⟨rfl, -⟩; rfl
      | succ k =>
          simp only [combinationsAux, List.mem_append, List.mem_map]
          constructor
          · rintro (⟨c, hc, rfl⟩ | hs)
            · rcases ih.mp hc with ⟨hlen, hsub⟩
              exact ⟨by simp [hlen], List.cons_sublist_cons.mpr hsub⟩
            · rcases ih.mp hs with ⟨hlen, hsub⟩
              exact ⟨hlen, hsub.trans (List.sublist_cons_self a t)⟩
          · rintro ⟨hlen, hsub⟩
            rcases List.sublist_cons_iff.mp hsub with hsub | ⟨r, rfl, hr⟩
            · exact Or.inr (ih.mpr ⟨hlen, hsub⟩)
            · refine Or.inl ⟨r, ih.mpr ⟨?_, hr⟩, rfl⟩
              simpa using hlen

theorem mem_combinations {s : List ℕ} {n k : ℕ} :
    s ∈ combinations n k ↔ s.length = k ∧ s.Sublist (List.range n) :=
  mem_combinationsAux

theorem length_combinationsAux :
    ∀ (l : List ℕ) (k : ℕ), (combinationsAux l k).length = l.length.choose k := by
  intro l
  induction l with
  | nil =>
      intro k
      cases k with
      | zero => simp [combinationsAux]
      | succ k => simp [combinationsAux]
  | cons a t ih =>
      intro k
      cases k with
      | zero => simp [combinationsAux]
      | succ k =>
          simp only [combinationsAux, List.length_append, List.length_map, ih,
            List.length_cons]
          rw [Nat.choose_succ_succ]

theorem length_combinations (n k : ℕ) : (combinations n k).length = n.choose k := by
  rw [combinations, length_combinationsAux, List.length_range]

theorem combinations_ne_nil {n k : ℕ} (h : k ≤ n) : combinations n k ≠ [] := by
  intro hnil
  have hlen := length_combinations n k
  rw [hnil] at hlen
  simp only [List.length_nil] at hlen
  exact absurd hlen.symm (Nat.ne_of_gt (Nat.choose_pos h))

/-- combinations n k is emitted in lexicographic order, the order of
itertools.combinations. -/
theorem pairwise_lex_combinationsAux :
    ∀ (l : List ℕ), l.Pairwise (· < ·) →
      ∀ (k : ℕ), (combinationsAux l k).Pairwise (List.Lex (· < ·)) := by
  intro l
  induction l with
  | nil =>
      intro _ k
      cases k with
      | zero => simp [combinationsAux]
      | succ k => simp [combinationsAux]
  | cons a t ih =>
      intro hl k
      rcases List.pairwise_cons.mp hl with ⟨ha, ht⟩
      cases k with
      | zero => simp [combinationsAux]
      | succ k =>
          simp only [combinationsAux]
          rw [List.pairwise_append]
          refine ⟨?_, ih ht (k + 1), ?_⟩
          · exact List.Pairwise.map _ (fun c1 c2 hlex => List.Lex.cons hlex) (ih ht k)
          · intro x hx y hy
            rcases List.mem_map.mp hx with ⟨c, -, rfl⟩
            rcases mem_combinationsAux.mp hy with ⟨hlen, hsub⟩
            cases y with
            | nil => simp at hlen
            | cons b y =>
                have hb : b ∈ t := hsub.subset (List.mem_cons_self b y)
                exact List.Lex.rel (ha b hb)

theorem pairwise_lex_combinations (n k : ℕ) :
    (combinations n k).Pairwise (List.Lex (· < ·)) :=
  pairwise_lex_combinationsAux (List.range n) (List.sorted_lt_range n) k

/-! ### Bridging lemmas between indicator vectors and index sets -/

theorem indicator_length (n : ℕ) (c : List ℕ) : (indicator n c).length = n := by
  simp [indicator]

theorem indicator_getD {n i : ℕ} (h : i < n) (c : List ℕ) :
    (indicator n c).getD i 0 = if i ∈ c then (1 : ℚ) else 0 := by
  have hlen : i < (indicator n c).length := by simpa [indicator_length] using h
  rw [List.getD_eq_getElem _ _ hlen]
  simp [indicator]

theorem filter_mem_of_sublist :
    ∀ {l big : List ℕ}, l.Sublist big → big.Nodup →
      big.filter (fun i => decide (i ∈ l)) = l := by
  intro l big hsub
  induction hsub with
  | slnil => intro _; rfl
  | @cons l t a hsub ih =>
      intro hnd
      rcases List.nodup_cons.mp hnd with ⟨ha, ht⟩
      have hna : a ∉ l := fun hal => ha (hsub.subset hal)
      have hstep : List.filter (fun i => decide (i ∈ l)) (a :: t)
          = List.filter (fun i => decide (i ∈ l)) t := by
        simp [List.filter_cons, hna]
      rw [hstep, ih ht]
  | @cons₂ l t a hsub ih =>
      intro hnd
      rcases List.nodup_cons.mp hnd with ⟨ha, ht⟩
      have hcongr : t.filter (fun i => decide (i ∈ a :: l)) =
          t.filter (fun i => decide (i ∈ l)) := by
        apply List.filter_congr
        intro x hx
        have hxa : x ≠ a := fun hxeq => ha (hxeq ▸ hx)
        simp [List.mem_cons, hxa]
      have hstep : List.filter (fun i => decide (i ∈ a :: l)) (a :: t)
          = a :: List.filter (fun i => decide (i ∈ a :: l)) t := by
        simp [List.filter_cons]
      rw [hstep, hcongr, ih ht]

theorem filter_indicator_eq {n : ℕ} {c : List ℕ} (hsub : c.Sublist (List.range n)) :
    (List.range n).filter (fun i => decide ((1 : ℚ) / 2 ≤ (indicator n c).getD i 0)) = c := by
  have h1 : (List.range n).filter (fun i => decide ((1 : ℚ) / 2 ≤ (indicator n c).getD i 0))
      = (List.range n).filter (fun i => decide (i ∈ c)) := by
    apply List.filter_congr
    intro i hi
    have hin : i < n := List.mem_range.mp hi
    rw [indicator_getD hin]
    by_cases hic : i ∈ c
    · simp [hic]
      norm_num
    · have hhalf : ¬ ((1 : ℚ) / 2 ≤ 0) := by norm_num
      simp [hic, hhalf]
  rw [h1, filter_mem_of_sublist hsub (List.nodup_range n)]

/-- Weight vector reported for a winning combination bc. -/
def weightsOf (n : ℕ) (bc : List ℕ) : List ℚ :=
  (List.range n).map (fun i => if i ∈ bc then (1 : ℚ) / bc.length else 0)

/-- Bitstring reported for a winning combination bc. -/
def bitstringOf (n : ℕ) (bc : List ℕ) : String :=
  String.join ((List.range n).map (fun i => if i ∈ bc then "1" else "0"))

/-- When the enumeration loop returns (b, bc) and bc is a set of in-range
indices, run_classical_numpy returns the record determined by bc. -/
theorem run_classical_numpy_eq_of_fold (mu : List ℚ) (sigma : List (List ℚ))
    (risk_factor : ℚ) (budget : ℕ) (b : ℚ) (bc : List ℕ)
    (hfold : foldBest
        (fun c => portfolio_objective mu sigma risk_factor (indicator mu.length c))
        none (combinations mu.length budget) = some (b, bc))
    (hsub : bc.Sublist (List.range mu.length)) :
    run_classical_numpy mu sigma risk_factor budget = some
      { selected_indices := bc
        weights := weightsOf mu.length bc
        objective_value := b
        expected_return := if bc.length ≠ 0
          then (bc.map (fun i => mu.getD i 0)).sum / bc.length else 0
        risk_sq := dot (weightsOf mu.length bc) (matVec sigma (weightsOf mu.length bc))
        method_used := "Classical (exact)"
        probability_distribution := [(bitstringOf mu.length bc, 1)]
        convergence_history := [] } := by
  have hsel : (List.range mu.length).filter
      (fun i => decide ((1 : ℚ) / 2 ≤ (indicator mu.length bc).getD i 0)) = bc :=
    filter_indicator_eq hsub
  have hbits : (List.range mu.length).map
        (fun i => if (1 : ℚ) / 2 ≤ (indicator mu.length bc).getD i 0 then "1" else "0")
      = (List.range mu.length).map (fun i => if i ∈ bc then "1" else "0") := by
    apply List.map_congr_left
    intro i hi
    have hin : i < mu.length := List.mem_range.mp hi
    rw [indicator_getD hin]
    by_cases hic : i ∈ bc
    · simp [hic]
      norm_num
    · have hhalf : ¬ ((1 : ℚ) / 2 ≤ 0) := by norm_num
      simp [hic, hhalf]
  simp only [run_classical_numpy, hfold, hsel, hbits, weightsOf, bitstringOf]

/-- Structure of the result of run_classical_numpy when the enumeration is
non-empty: every reported field is determined by the winning combination. -/
theorem run_classical_numpy_spec (mu : List ℚ) (sigma : List (List ℚ)) (risk_factor : ℚ)
    (budget : ℕ) (hbn : budget ≤ mu.length) :
    ∃ b bc r,
      foldBest (fun c => portfolio_objective mu sigma risk_factor (indicator mu.length c))
        none (combinations mu.length budget) = some (b, bc) ∧
      bc ∈ combinations mu.length budget ∧
      run_classical_numpy mu sigma risk_factor budget = some r ∧
      r.selected_indices = bc ∧
      r.objective_value = b ∧
      r.weights = weightsOf mu.length bc ∧
      r.probability_distribution = [(bitstringOf mu.length bc, 1)] ∧
      r.convergence_history = [] ∧
      r.method_used = "Classical (exact)" := by
  have hne : combinations mu.length budget ≠ [] := combinations_ne_nil hbn
  obtain ⟨c0, rest, hcons⟩ : ∃ c0 rest, combinations mu.length budget = c0 :: rest := by
    cases hco : combinations mu.length budget with
    | nil => exact absurd hco hne
    | cons c0 rest => exact ⟨c0, rest, rfl⟩
  set f : List ℕ → ℚ :=
    fun c => portfolio_objective mu sigma risk_factor (indicator mu.length c) with hf
  have hsome : (foldBest f none (combinations mu.length budget)).isSome := by
    rw [hcons]
    simp only [foldBest]
    exact foldBest_isSome f rest (f c0) c0
  obtain ⟨⟨b, bc⟩, hfold⟩ := Option.isSome_iff_exists.mp hsome
  have hmem : bc ∈ combinations mu.length budget := (foldBest_min f _ b bc hfold).1
  have hsub : bc.Sublist (List.range mu.length) := (mem_combinations.mp hmem).2
  exact ⟨b, bc, _, hfold, hmem,
    run_classical_numpy_eq_of_fold mu sigma risk_factor budget b bc hfold hsub,
    rfl, rfl, rfl, rfl, rfl, rfl⟩

theorem count_one_indicator {n : ℕ} {c : List ℕ} (hsub : c.Sublist (List.range n)) :
    (indicator n c).count 1 = c.length := by
  rw [indicator, List.count_eq_countP, List.countP_map]
  have hpt : ((fun (x : ℚ) => x == 1) ∘ (fun i => if i ∈ c then (1 : ℚ) else 0))
      = fun i => decide (i ∈ c) := by
    funext i
    by_cases hic : i ∈ c
    · simp [hic]
    · simp [hic]
  rw [hpt, List.countP_eq_length_filter, filter_mem_of_sublist hsub (List.nodup_range n)]

/-- Every 0/1 vector of length n with exactly budget ones is the indicator
vector of exactly the combination listed by itertools. -/
theorem exists_combo_of_binary (n budget : ℕ) (x : List ℚ) (hlen : x.length = n)
    (hbin : ∀ v ∈ x, v = 0 ∨ v = 1) (hcount : x.count 1 = budget) :
    ∃ c, c ∈ combinations n budget ∧ indicator n c = x := by
  set c := (List.range n).filter (fun i => decide (x.getD i 0 = 1)) with hc
  have hsub : c.Sublist (List.range n) := List.filter_sublist _
  have hxeq : indicator n c = x := by
    apply List.ext_getElem
    · rw [indicator_length, hlen]
    · intro i h1 h2
      have hin : i < n := by
        have := h1
        rwa [indicator_length] at this
      have hgl : (indicator n c)[i] = if i ∈ c then (1 : ℚ) else 0 := by
        rw [← List.getD_eq_getElem _ 0 h1, indicator_getD hin]
      have hmemc : i ∈ c ↔ x.getD i 0 = 1 := by
        rw [hc]
        simp [List.mem_filter, List.mem_range, hin]
      have hxg : x.getD i 0 = x[i] := List.getD_eq_getElem _ _ h2
      rcases hbin (x[i]) (List.getElem_mem h2) with h0 | h1v
      · rw [hgl, if_neg]
        · exact h0.symm
        · intro hicm
          have := hmemc.mp hicm
          rw [hxg, h0] at this
          norm_num at this
      · rw [hgl, if_pos]
        · exact h1v.symm
        · exact hmemc.mpr (by rw [hxg, h1v])
  have hclen : c.length = budget := by
    have hcnt := count_one_indicator hsub
    rw [hxeq] at hcnt
    rw [← hcount]
    exact hcnt.symm
  exact ⟨c, mem_combinations.mpr ⟨hclen, hsub⟩, hxeq⟩

/-- Claim C1: for every mu, sigma, risk_factor and integer budget with
1 ≤ budget < n, run_classical_numpy returns a result whose selection has
exactly budget ones and whose objective value, the objective of its own
indicator vector, is less than or equal to the objective
risk_factor * xᵀ·sigma·x − (1 − risk_factor) * muᵀ·x of every binary vector x
with exactly budget ones. -/
theorem run_classical_numpy_budget_and_optimal
    (mu : List ℚ) (sigma : List (List ℚ)) (risk_factor : ℚ) (budget : ℕ)
    (hb1 : 1 ≤ budget) (hbn : budget < mu.length) :
    ∃ r, run_classical_numpy mu sigma risk_factor budget = some r ∧
      r.selected_indices.length = budget ∧
      r.objective_value = portfolio_objective mu sigma risk_factor
        (indicator mu.length r.selected_indices) ∧
      ∀ x : List ℚ, x.length = mu.length → (∀ v ∈ x, v = 0 ∨ v = 1) →
        x.count 1 = budget →
        r.objective_value ≤ portfolio_objective mu sigma risk_factor x := by
  obtain ⟨b, bc, r, hfold, hmem, hrun, hsel, hobj, -, -, -, -⟩ :=
    run_classical_numpy_spec mu sigma risk_factor budget (le_of_lt hbn)
  have hmin := foldBest_min _ _ b bc hfold
  refine ⟨r, hrun, ?_, ?_, ?_⟩
  · rw [hsel]
    exact (mem_combinations.mp hmem).1
  · rw [hsel, hobj]
    exact hmin.2.1
  · intro x hxlen hxbin hxcount
    obtain ⟨c, hcmem, hceq⟩ := exists_combo_of_binary mu.length budget x hxlen hxbin hxcount
    rw [hobj]
    calc b ≤ portfolio_objective mu sigma risk_factor (indicator mu.length c) :=
          hmin.2.2 c hcmem
      _ = portfolio_objective mu sigma risk_factor x := by rw [hceq]

/-- Witness for C1 at the spec's concrete scenario: three uncorrelated assets,
risk_factor = 1, budget = 1. -/
theorem run_classical_numpy_budget_and_optimal_witness :
    (1 ≤ 1 ∧ 1 < ([(1 : ℚ)/10, 1/20, 2/25]).length) ∧
    ∃ r, run_classical_numpy [(1 : ℚ)/10, 1/20, 2/25]
        [[1/25, 0, 0], [0, 1/100, 0], [0, 0, 1/50]] 1 1 = some r ∧
      r.selected_indices.length = 1 ∧
      r.objective_value = portfolio_objective [(1 : ℚ)/10, 1/20, 2/25]
        [[1/25, 0, 0], [0, 1/100, 0], [0, 0, 1/50]] 1
        (indicator ([(1 : ℚ)/10, 1/20, 2/25]).length r.selected_indices) ∧
      ∀ x : List ℚ, x.length = ([(1 : ℚ)/10, 1/20, 2/25]).length →
        (∀ v ∈ x, v = 0 ∨ v = 1) → x.count 1 = 1 →
        r.objective_value ≤ portfolio_objective [(1 : ℚ)/10, 1/20, 2/25]
          [[1/25, 0, 0], [0, 1/100, 0], [0, 0, 1/50]] 1 x :=
  ⟨⟨le_refl 1, by norm_num⟩,
    run_classical_numpy_budget_and_optimal [(1 : ℚ)/10, 1/20, 2/25]
      [[1/25, 0, 0], [0, 1/100, 0], [0, 0, 1/50]] 1 1 (le_refl 1) (by norm_num)⟩

/-- Inversion: a some-result of run_classical_numpy comes from a successful
enumeration loop. -/
theorem run_classical_numpy_some_inv (mu : List ℚ) (sigma : List (List ℚ))
    (risk_factor : ℚ) (budget : ℕ) (r : OptimizationResult)
    (h : run_classical_numpy mu sigma risk_factor budget = some r) :
    ∃ b bc,
      foldBest (fun c => portfolio_objective mu sigma risk_factor (indicator mu.length c))
        none (combinations mu.length budget) = some (b, bc) ∧
      r.selected_indices = bc ∧ r.objective_value = b := by
  cases hfold : foldBest
      (fun c => portfolio_objective mu sigma risk_factor (indicator mu.length c))
      none (combinations mu.length budget) with
  | none =>
      simp only [run_classical_numpy, hfold] at h
      exact Option.noConfusion h
  | some p =>
      obtain ⟨b, bc⟩ := p
      have hmem := (foldBest_min _ _ b bc hfold).1
      have hsub := (mem_combinations.mp hmem).2
      have heq := run_classical_numpy_eq_of_fold mu sigma risk_factor budget b bc hfold hsub
      rw [heq] at h
      injection h with h
      exact ⟨b, bc, rfl, by rw [← h], by rw [← h]⟩

/-- Claim C2: run_classical_numpy is deterministic — it is a pure function
of (mu, sigma, risk_factor, budget) alone, the source loop having no
randomness or ambient state, so repeated calls agree — the enumeration order
is lexicographic over combinations, the returned selection is the first
minimizer in that order (strictly better than everything before it, no worse
than everything after it), and on the concrete tie scenario mu = [0, 0],
sigma = 0.04·I, budget = 1 it selects index 0 for every risk_factor. -/
theorem run_classical_numpy_deterministic_tie_break
    (mu : List ℚ) (sigma : List (List ℚ)) (risk_factor : ℚ) (budget : ℕ)
    (hb1 : 1 ≤ budget) (hbn : budget < mu.length) :
    run_classical_numpy mu sigma risk_factor budget
      = run_classical_numpy mu sigma risk_factor budget ∧
    (combinations mu.length budget).Pairwise (List.Lex (· < ·)) ∧
    (∃ r, run_classical_numpy mu sigma risk_factor budget = some r ∧
      ∃ l1 l2, combinations mu.length budget = l1 ++ r.selected_indices :: l2 ∧
        (∀ c ∈ l1, r.objective_value <
          portfolio_objective mu sigma risk_factor (indicator mu.length c)) ∧
        (∀ c ∈ l2, r.objective_value ≤
          portfolio_objective mu sigma risk_factor (indicator mu.length c))) ∧
    ∀ q : ℚ, ∃ r0,
      run_classical_numpy [0, 0] [[1/25, 0], [0, 1/25]] q 1 = some r0 ∧
      r0.selected_indices = [0] := by
  obtain ⟨b, bc, r, hfold, hmem, hrun, hsel, hobj, -, -, -, -⟩ :=
    run_classical_numpy_spec mu sigma risk_factor budget (le_of_lt hbn)
  refine ⟨rfl, pairwise_lex_combinations _ _, ?_, ?_⟩
  · obtain ⟨l1, l2, hsplit, -, h1, h2⟩ := foldBest_none_spec _ _ b bc hfold
    refine ⟨r, hrun, l1, l2, ?_, ?_, ?_⟩
    · rw [hsel]; exact hsplit
    · intro c hc; rw [hobj]; exact h1 c hc
    · intro c hc; rw [hobj]; exact h2 c hc
  · intro q
    have hind0 : indicator 2 [0] = [1, 0] := by
      rw [indicator, show List.range 2 = [0, 1] from rfl]
      norm_num
    have hind1 : indicator 2 [1] = [0, 1] := by
      rw [indicator, show List.range 2 = [0, 1] from rfl]
      norm_num
    have hobj0 : portfolio_objective [0, 0] [[1/25, 0], [0, 1/25]] q (indicator 2 [0])
        = q * (1/25) := by
      rw [portfolio_objective, hind0]
      simp [dot, matVec]
    have hobj1 : portfolio_objective [0, 0] [[1/25, 0], [0, 1/25]] q (indicator 2 [1])
        = q * (1/25) := by
      rw [portfolio_objective, hind1]
      simp [dot, matVec]
    have hfold2 : foldBest
        (fun c => portfolio_objective [0, 0] [[1/25, 0], [0, 1/25]] q (indicator 2 c))
        none (combinations 2 1) = some (q * (1/25), [0]) := by
      have hcomb : combinations 2 1 = [[0], [1]] := by decide
      rw [hcomb]
      simp only [foldBest, hobj0, hobj1]
      rw [if_neg (lt_irrefl (q * (1/25)))]
    have hsub01 : List.Sublist [0] (List.range 2) := by
      rw [show List.range 2 = [0, 1] from rfl]
      exact List.Sublist.cons₂ 0 (List.nil_sublist [1])
    exact ⟨_, run_classical_numpy_eq_of_fold [0, 0] [[1/25, 0], [0, 1/25]] q 1
      (q * (1/25)) [0] hfold2 hsub01, rfl⟩

/-- Witness for C2 at the tie scenario itself (budget 1 over two assets). -/
theorem run_classical_numpy_deterministic_tie_break_witness :
    (1 ≤ 1 ∧ 1 < ([(0 : ℚ), 0]).length) ∧
    (run_classical_numpy [0, 0] [[1/25, 0], [0, 1/25]] (1/2) 1
      = run_classical_numpy [0, 0] [[1/25, 0], [0, 1/25]] (1/2) 1 ∧
    (combinations ([(0 : ℚ), 0]).length 1).Pairwise (List.Lex (· < ·)) ∧
    (∃ r, run_classical_numpy [0, 0] [[1/25, 0], [0, 1/25]] (1/2) 1 = some r ∧
      ∃ l1 l2, combinations ([(0 : ℚ), 0]).length 1 = l1 ++ r.selected_indices :: l2 ∧
        (∀ c ∈ l1, r.objective_value <
          portfolio_objective [0, 0] [[1/25, 0], [0, 1/25]] (1/2)
            (indicator ([(0 : ℚ), 0]).length c)) ∧
        (∀ c ∈ l2, r.objective_value ≤
          portfolio_objective [0, 0] [[1/25, 0], [0, 1/25]] (1/2)
            (indicator ([(0 : ℚ), 0]).length c))) ∧
    ∀ q : ℚ, ∃ r0,
      run_classical_numpy [0, 0] [[1/25, 0], [0, 1/25]] q 1 = some r0 ∧
      r0.selected_indices = [0]) :=
  ⟨⟨le_refl 1, by norm_num⟩,
    run_classical_numpy_deterministic_tie_break [0, 0] [[1/25, 0], [0, 1/25]] (1/2) 1
      (le_refl 1) (by norm_num)⟩

/-- Length of the reported bitstring. -/
theorem bitstringOf_length (n : ℕ) (bc : List ℕ) : (bitstringOf n bc).length = n := by
  have hfold : ∀ (l : List String) (acc : String),
      (l.foldl (fun r s => r ++ s) acc).length = acc.length + (l.map String.length).sum := by
    intro l
    induction l with
    | nil => intro acc; simp
    | cons a t ih =>
        intro acc
        simp only [List.foldl_cons, List.map_cons, List.sum_cons, ih, String.length_append]
        omega
  rw [bitstringOf, String.join, hfold]
  have hlens : (((List.range n).map (fun i => if i ∈ bc then "1" else "0")).map
      String.length) = List.replicate n 1 := by
    rw [List.map_map]
    refine List.eq_replicate_iff.mpr ⟨by simp, ?_⟩
    intro a ha
    rcases List.mem_map.mp ha with ⟨i, -, rfl⟩
    by_cases hic : i ∈ bc
    · simp only [Function.comp_apply, hic, if_true]
      decide
    · simp only [Function.comp_apply, hic, if_false]
      decide
  rw [hlens]
  simp [List.sum_replicate]

/-- Claim C7: on valid inputs the result's probability distribution is the
single pair (optimal bitstring of length n, probability 1), the convergence
history is empty, and the weight of every index is 1/budget when selected
and 0 otherwise. -/
theorem run_classical_numpy_result_fields
    (mu : List ℚ) (sigma : List (List ℚ)) (risk_factor : ℚ) (budget : ℕ)
    (hb1 : 1 ≤ budget) (hbn : budget < mu.length) :
    ∃ r, run_classical_numpy mu sigma risk_factor budget = some r ∧
      r.probability_distribution = [(bitstringOf mu.length r.selected_indices, 1)] ∧
      (bitstringOf mu.length r.selected_indices).length = mu.length ∧
      r.convergence_history = [] ∧
      ∀ i, i < mu.length → r.weights.getD i 0 =
        if i ∈ r.selected_indices then (1 : ℚ) / budget else 0 := by
  obtain ⟨b, bc, r, hfold, hmem, hrun, hsel, -, hw, hp, hconv, -⟩ :=
    run_classical_numpy_spec mu sigma risk_factor budget (le_of_lt hbn)
  have hbclen : bc.length = budget := (mem_combinations.mp hmem).1
  refine ⟨r, hrun, by rw [hsel, hp], by rw [hsel, bitstringOf_length], hconv, ?_⟩
  intro i hi
  rw [hsel, hw, weightsOf]
  have hlen : i < ((List.range mu.length).map
      (fun j => if j ∈ bc then (1 : ℚ) / bc.length else 0)).length := by
    simpa using hi
  rw [List.getD_eq_getElem _ _ hlen, List.getElem_map, List.getElem_range, hbclen]

/-- Witness for C7 at the three-asset scenario with budget 1. -/
theorem run_classical_numpy_result_fields_witness :
    (1 ≤ 1 ∧ 1 < ([(1 : ℚ)/10, 1/20, 2/25]).length) ∧
    ∃ r, run_classical_numpy [(1 : ℚ)/10, 1/20, 2/25]
        [[1/25, 0, 0], [0, 1/100, 0], [0, 0, 1/50]] 1 1 = some r ∧
      r.probability_distribution =
        [(bitstringOf ([(1 : ℚ)/10, 1/20, 2/25]).length r.selected_indices, 1)] ∧
      (bitstringOf ([(1 : ℚ)/10, 1/20, 2/25]).length r.selected_indices).length
        = ([(1 : ℚ)/10, 1/20, 2/25]).length ∧
      r.convergence_history = [] ∧
      ∀ i, i < ([(1 : ℚ)/10, 1/20, 2/25]).length → r.weights.getD i 0 =
        if i ∈ r.selected_indices then (1 : ℚ) / 1 else 0 :=
  ⟨⟨le_refl 1, by norm_num⟩,
    run_classical_numpy_result_fields [(1 : ℚ)/10, 1/20, 2/25]
      [[1/25, 0, 0], [0, 1/100, 0], [0, 0, 1/50]] 1 1 (le_refl 1) (by norm_num)⟩

/-! ### Lemmas about the Pareto filter -/

instance {α : Type} (riskOf retOf : α → ℚ) : IsTotal α (keyLE riskOf retOf) := ⟨by
  intro p q
  rcases lt_trichotomy (riskOf p) (riskOf q) with h | h | h
  · exact Or.inl (Or.inl h)
  · rcases le_total (retOf q) (retOf p) with hr | hr
    · exact Or.inl (Or.inr ⟨h, hr⟩)
    · exact Or.inr (Or.inr ⟨h.symm, hr⟩)
  · exact Or.inr (Or.inl h)⟩

instance {α : Type} (riskOf retOf : α → ℚ) : IsTrans α (keyLE riskOf retOf) := ⟨by
  intro p q s hpq hqs
  rcases hpq with h1 | ⟨h1, hr1⟩
  · rcases hqs with h2 | ⟨h2, -⟩
    · exact Or.inl (h1.trans h2)
    · exact Or.inl (lt_of_lt_of_le h1 (le_of_eq h2))
  · rcases hqs with h2 | ⟨h2, hr2⟩
    · exact Or.inl (lt_of_le_of_lt (le_of_eq h1) h2)
    · exact Or.inr ⟨h1.trans h2, hr2.trans hr1⟩⟩

theorem paretoScan_sublist {α : Type} (retOf : α → ℚ) :
    ∀ (l : List α) (best : ℚ), (paretoScan retOf best l).Sublist l := by
  intro l
  induction l with
  | nil => intro best; simp [paretoScan]
  | cons p rest ih =>
      intro best
      simp only [paretoScan]
      by_cases h : best < retOf p
      · rw [if_pos h]
        exact List.Sublist.cons₂ p (ih (retOf p))
      · rw [if_neg h]
        exact (ih best).trans (List.sublist_cons_self p rest)

theorem paretoScan_ret_gt {α : Type} (retOf : α → ℚ) :
    ∀ (l : List α) (best : ℚ), ∀ x ∈ paretoScan retOf best l, best < retOf x := by
  intro l
  induction l with
  | nil => intro best x hx; simp [paretoScan] at hx
  | cons p rest ih =>
      intro best x hx
      simp only [paretoScan] at hx
      by_cases h : best < retOf p
      · rw [if_pos h] at hx
        rcases List.mem_cons.mp hx with rfl | hx
        · exact h
        · exact lt_trans h (ih (retOf p) x hx)
      · rw [if_neg h] at hx
        exact ih best x hx

/-- Along the scan output the returns strictly increase. -/
theorem paretoScan_pairwise_ret {α : Type} (retOf : α → ℚ) :
    ∀ (l : List α) (best : ℚ),
      (paretoScan retOf best l).Pairwise (fun x y => retOf x < retOf y) := by
  intro l
  induction l with
  | nil => intro best; simp [paretoScan]
  | cons p rest ih =>
      intro best
      simp only [paretoScan]
      by_cases h : best < retOf p
      · rw [if_pos h]
        exact List.pairwise_cons.mpr ⟨paretoScan_ret_gt retOf rest (retOf p), ih (retOf p)⟩
      · rw [if_neg h]
        exact ih best

/-- Output of the full sort-then-scan filter: retained points strictly
increase in both the risk coordinate and the return. -/
theorem pareto_filter_strict {α : Type} (riskOf retOf : α → ℚ) (l : List α) :
    (pareto_filter riskOf retOf l).Pairwise
      (fun x y => riskOf x < riskOf y ∧ retOf x < retOf y) := by
  have hsorted : (List.insertionSort (keyLE riskOf retOf) l).Pairwise (keyLE riskOf retOf) :=
    List.sorted_insertionSort _ l
  have hsub := paretoScan_sublist retOf
    (List.insertionSort (keyLE riskOf retOf) l) (-(10 ^ 9 : ℚ))
  have h1 : (pareto_filter riskOf retOf l).Pairwise (keyLE riskOf retOf) :=
    List.Pairwise.sublist hsub hsorted
  have h2 : (pareto_filter riskOf retOf l).Pairwise (fun x y => retOf x < retOf y) :=
    paretoScan_pairwise_ret retOf (List.insertionSort (keyLE riskOf retOf) l) (-(10 ^ 9 : ℚ))
  refine (h1.and h2).imp ?_
  rintro x y ⟨hk, hr⟩
  rcases hk with hk | ⟨-, hle⟩
  · exact ⟨hk, hr⟩
  · exact absurd hr (not_lt.mpr hle)

theorem pareto_filter_mem {α : Type} (riskOf retOf : α → ℚ) (l : List α) :
    ∀ x ∈ pareto_filter riskOf retOf l, x ∈ l := by
  intro x hx
  have hsub := paretoScan_sublist retOf
    (List.insertionSort (keyLE riskOf retOf) l) (-(10 ^ 9 : ℚ))
  exact (List.perm_insertionSort (keyLE riskOf retOf) l).subset (hsub.subset hx)

/-- Claim C10: on every finite candidate list, the Pareto filter of
api_risk_return returns a sequence strictly increasing in both the risk and
the return coordinate; in particular no two output points share a risk value
or a return value. -/
theorem pareto_filter_strictly_increasing (l : List (ℚ × ℚ)) :
    (pareto_filter Prod.fst Prod.snd l).Pairwise
      (fun p q => p.1 < q.1 ∧ p.2 < q.2) ∧
    (pareto_filter Prod.fst Prod.snd l).Pairwise
      (fun p q => p.1 ≠ q.1 ∧ p.2 ≠ q.2) := by
  have h := pareto_filter_strict Prod.fst Prod.snd l
  constructor
  · exact h
  · refine h.imp ?_
    rintro p q ⟨h1, h2⟩
    exact ⟨ne_of_lt h1, ne_of_lt h2⟩

/-! ### Lemmas about the frontier enumeration -/

theorem list_sum_range_eq (n : ℕ) (f : ℕ → ℕ) :
    ((List.range n).map f).sum = ∑ i ∈ Finset.range n, f i := by
  rw [← List.sum_toFinset f (List.nodup_range n)]
  congr 1
  ext x
  simp

theorem sum_choose_interior (n : ℕ) (hn : 2 ≤ n) :
    ∑ i ∈ Finset.range (n - 1), n.choose (1 + i) = 2 ^ n - 2 := by
  obtain ⟨m, rfl⟩ : ∃ m, n = m + 2 := ⟨n - 2, by omega⟩
  have h1 : ∑ i ∈ Finset.range (m + 2 - 1), (m + 2).choose (1 + i)
      = ∑ k ∈ Finset.Ico 1 (m + 2), (m + 2).choose k :=
    (Finset.sum_Ico_eq_sum_range _ 1 (m + 2)).symm
  have h2 : ∑ k ∈ Finset.Ico 0 (m + 3), (m + 2).choose k = 2 ^ (m + 2) := by
    rw [← Finset.range_eq_Ico]
    exact Nat.sum_range_choose (m + 2)
  have h3 : ∑ k ∈ Finset.Ico 0 (m + 3), (m + 2).choose k
      = (m + 2).choose 0 + ∑ k ∈ Finset.Ico 1 (m + 3), (m + 2).choose k :=
    Finset.sum_eq_sum_Ico_succ_bot (by omega) _
  have h4 : ∑ k ∈ Finset.Ico 1 (m + 3), (m + 2).choose k
      = ∑ k ∈ Finset.Ico 1 (m + 2), (m + 2).choose k + (m + 2).choose (m + 2) :=
    Finset.sum_Ico_succ_top (by omega) _
  rw [h1]
  rw [h2, h3, h4, Nat.choose_zero_right, Nat.choose_self] at *
  omega

theorem length_frontier_points (mu : List ℚ) (sigma : List (List ℚ))
    (hn : 2 ≤ mu.length) :
    (frontier_points mu sigma).length = 2 ^ mu.length - 2 := by
  rw [frontier_points, List.length_flatMap]
  have hmap : List.map (List.length ∘ fun k => (combinations mu.length k).map
        (fun combo => KPoint.mk
          (dot (eq_weights mu.length k combo) (matVec sigma (eq_weights mu.length k combo)))
          (dot (eq_weights mu.length k combo) mu)))
        (List.range' 1 (mu.length - 1))
      = List.map (fun k => mu.length.choose k) (List.range' 1 (mu.length - 1)) := by
    apply List.map_congr_left
    intro k hk
    simp [length_combinations]
  rw [hmap, List.range'_eq_map_range, List.map_map, list_sum_range_eq]
  exact sum_choose_interior mu.length hn

/-- Claim C3: the frontier enumeration generates exactly 2^n − 2 candidate
points (one equal-weight point per k-subset, 1 ≤ k ≤ n−1), and the returned
Pareto frontier is non-decreasing in risk (sqrt of the stored radicand),
non-decreasing in return, and contains no pair of points in which one has
risk no larger than, and return strictly greater than, the other.  The
non-negativity hypothesis on the radicands reflects that sigma is a
covariance matrix; with a negative quadratic form the source would take
sqrt of a negative float and sort NaN keys. -/
theorem api_risk_return_frontier_properties
    (mu : List ℚ) (sigma : List (List ℚ)) (hn : 2 ≤ mu.length)
    (hvar : ∀ p ∈ frontier_points mu sigma, 0 ≤ p.var) :
    (frontier_points mu sigma).length = 2 ^ mu.length - 2 ∧
    (∀ p : KPoint, p ∈ frontier_points mu sigma ↔
      ∃ k combo, k ∈ List.range' 1 (mu.length - 1) ∧
        combo ∈ combinations mu.length k ∧
        p = KPoint.mk
          (dot (eq_weights mu.length k combo) (matVec sigma (eq_weights mu.length k combo)))
          (dot (eq_weights mu.length k combo) mu)) ∧
    (efficient_frontier mu sigma).Pairwise (fun p q =>
      Real.sqrt (p.var : ℝ) ≤ Real.sqrt (q.var : ℝ) ∧ p.ret ≤ q.ret) ∧
    ∀ p ∈ efficient_frontier mu sigma, ∀ q ∈ efficient_frontier mu sigma,
      ¬ (Real.sqrt (p.var : ℝ) ≤ Real.sqrt (q.var : ℝ) ∧ q.ret < p.ret) := by
  have hstrict := pareto_filter_strict KPoint.var KPoint.ret (frontier_points mu sigma)
  have hmemsub : ∀ x ∈ efficient_frontier mu sigma, x ∈ frontier_points mu sigma :=
    pareto_filter_mem KPoint.var KPoint.ret (frontier_points mu sigma)
  refine ⟨length_frontier_points mu sigma hn, ?_, ?_, ?_⟩
  · intro p
    simp only [frontier_points, List.mem_flatMap, List.mem_map]
    constructor
    · rintro ⟨k, hk, combo, hcombo, rfl⟩
      exact ⟨k, combo, hk, hcombo, rfl⟩
    · rintro ⟨k, combo, hk, hcombo, rfl⟩
      exact ⟨k, hk, combo, hcombo, rfl⟩
  · refine hstrict.imp ?_
    rintro p q ⟨h1, h2⟩
    refine ⟨Real.sqrt_le_sqrt ?_, le_of_lt h2⟩
    exact_mod_cast le_of_lt h1
  · intro p hp q hq
    rintro ⟨hrisk, hret⟩
    by_cases hpq : p = q
    · subst hpq
      exact absurd hret (lt_irrefl _)
    · have hsym : Symmetric (fun x y : KPoint =>
          (x.var < y.var ∧ x.ret < y.ret) ∨ (y.var < x.var ∧ y.ret < x.ret)) := by
        intro x y hxy
        tauto
      have hforall := (hstrict.imp
        (fun hxy => Or.inl hxy)).forall hsym
      rcases hforall hp hq hpq with ⟨hv, hr⟩ | ⟨hv, hr⟩
      · exact absurd hret (not_lt.mpr (le_of_lt hr))
      · have hq0 : (0 : ℝ) ≤ (q.var : ℝ) := by
          exact_mod_cast hvar q (hmemsub q hq)
        have : Real.sqrt (q.var : ℝ) < Real.sqrt (p.var : ℝ) :=
          Real.sqrt_lt_sqrt hq0 (by exact_mod_cast hv)
        exact absurd hrisk (not_le.mpr this)

/-- Witness for C3 on two identically-zero assets. -/
theorem api_risk_return_frontier_properties_witness :
    (2 ≤ ([(0 : ℚ), 0]).length ∧
      ∀ p ∈ frontier_points [(0 : ℚ), 0] [[0, 0], [0, 0]], 0 ≤ p.var) ∧
    ((frontier_points [(0 : ℚ), 0] [[0, 0], [0, 0]]).length
        = 2 ^ ([(0 : ℚ), 0]).length - 2 ∧
      (∀ p : KPoint, p ∈ frontier_points [(0 : ℚ), 0] [[0, 0], [0, 0]] ↔
        ∃ k combo, k ∈ List.range' 1 (([(0 : ℚ), 0]).length - 1) ∧
          combo ∈ combinations ([(0 : ℚ), 0]).length k ∧
          p = KPoint.mk
            (dot (eq_weights ([(0 : ℚ), 0]).length k combo)
              (matVec [[0, 0], [0, 0]] (eq_weights ([(0 : ℚ), 0]).length k combo)))
            (dot (eq_weights ([(0 : ℚ), 0]).length k combo) [(0 : ℚ), 0])) ∧
      (efficient_frontier [(0 : ℚ), 0] [[0, 0], [0, 0]]).Pairwise (fun p q =>
        Real.sqrt (p.var : ℝ) ≤ Real.sqrt (q.var : ℝ) ∧ p.ret ≤ q.ret) ∧
      ∀ p ∈ efficient_frontier [(0 : ℚ), 0] [[0, 0], [0, 0]],
        ∀ q ∈ efficient_frontier [(0 : ℚ), 0] [[0, 0], [0, 0]],
          ¬ (Real.sqrt (p.var : ℝ) ≤ Real.sqrt (q.var : ℝ) ∧ q.ret < p.ret)) := by
  have hvar : ∀ p ∈ frontier_points [(0 : ℚ), 0] [[0, 0], [0, 0]], 0 ≤ p.var := by
    have hfp : frontier_points [(0 : ℚ), 0] [[0, 0], [0, 0]]
        = [KPoint.mk 0 0, KPoint.mk 0 0] := by
      have h1 : ([(0 : ℚ), 0]).length = 2 := rfl
      have h2 : List.range' 1 (2 - 1) = [1] := rfl
      have h3 : combinations 2 1 = [[0], [1]] := by decide
      have h4 : List.range 2 = [0, 1] := rfl
      rw [frontier_points]
      simp only [h1, h2, h3, List.flatMap_cons, List.flatMap_nil, List.map_cons,
        List.map_nil, List.append_nil]
      norm_num [eq_weights, dot, matVec, h4]
    rw [hfp]
    intro p hp
    rcases List.mem_cons.mp hp with rfl | hp
    · norm_num
    · rcases List.mem_cons.mp hp with rfl | hp
      · norm_num
      · simp at hp
  exact ⟨⟨by norm_num, hvar⟩,
    api_risk_return_frontier_properties [(0 : ℚ), 0] [[0, 0], [0, 0]] (by norm_num) hvar⟩

/-! ### Lemmas about the covariance cache -/

theorem insertionSort_le_perm_eq {l1 l2 : List String} (hp : l1.Perm l2) :
    List.insertionSort (· ≤ ·) l1 = List.insertionSort (· ≤ ·) l2 := by
  apply List.eq_of_perm_of_sorted (r := (· ≤ · : String → String → Prop))
  · exact (List.perm_insertionSort _ l1).trans (hp.trans (List.perm_insertionSort _ l2).symm)
  · exact List.sorted_insertionSort _ l1
  · exact List.sorted_insertionSort _ l2

theorem cov_cache_key_perm (s1 s2 : List String) (hp : s1.Perm s2) :
    cov_cache_key s1 = cov_cache_key s2 := by
  rw [cov_cache_key, cov_cache_key, insertionSort_le_perm_eq hp]

/-- Claim C4: a snapshot stored at time t under a symbol set is returned
unchanged, without running the fetch path, by every later call with any
permutation of the same symbols while now − t ≤ TTL (= 300 s); once
now − t > TTL the fetch path runs again. -/
theorem cov_cache_hit_and_expiry
    (cache : CovCache) (symbols symbols' : List String) (hp : symbols'.Perm symbols)
    (mu : List ℚ) (sigma : List (List ℚ)) (t : ℚ)
    (hlook : cache_lookup (cov_cache_key symbols) cache = some ⟨mu, sigma, t⟩) :
    (∀ (now : ℚ) (computed : Option (List ℚ × List (List ℚ))), now - t ≤ 300 →
      get_expected_returns_and_covariance 300 cache now symbols' true computed
        = ((mu, sigma), cache, false)) ∧
    (∀ (now : ℚ) (computed : Option (List ℚ × List (List ℚ))), now - t > 300 →
      (get_expected_returns_and_covariance 300 cache now symbols' true computed).2.2
        = true) := by
  have hkey : cov_cache_key symbols' = cov_cache_key symbols := cov_cache_key_perm _ _ hp
  constructor
  · intro now computed hle
    have hstale : is_stale 300 now t = false := by
      rw [is_stale]
      exact decide_eq_false (not_lt.mpr hle)
    simp only [get_expected_returns_and_covariance, if_true, hkey, hlook, hstale,
      Bool.false_eq_true, if_false]
  · intro now computed hgt
    have hstale : is_stale 300 now t = true := by
      rw [is_stale]
      exact decide_eq_true hgt
    cases computed with
    | none =>
        simp only [get_expected_returns_and_covariance, if_true, hkey, hlook, hstale]
    | some p =>
        obtain ⟨m, s⟩ := p
        simp only [get_expected_returns_and_covariance, if_true, hkey, hlook, hstale]

/-- Witness for C4: a one-symbol cache entry stored at time 0. -/
theorem cov_cache_hit_and_expiry_witness :
    (cache_lookup (cov_cache_key ["A"]) [("A", ⟨[1], [[2]], 0⟩)]
        = some ⟨[1], [[2]], (0 : ℚ)⟩) ∧
    ((∀ (now : ℚ) (computed : Option (List ℚ × List (List ℚ))), now - 0 ≤ 300 →
      get_expected_returns_and_covariance 300 [("A", ⟨[1], [[2]], 0⟩)] now ["A"] true computed
        = (([1], [[2]]), [("A", ⟨[1], [[2]], 0⟩)], false)) ∧
    (∀ (now : ℚ) (computed : Option (List ℚ × List (List ℚ))), now - 0 > 300 →
      (get_expected_returns_and_covariance 300 [("A", ⟨[1], [[2]], 0⟩)] now ["A"]
        true computed).2.2 = true)) :=
  ⟨by rw [cov_cache_key]; rfl,
    cov_cache_hit_and_expiry [("A", ⟨[1], [[2]], 0⟩)] ["A"] ["A"] (List.Perm.refl _)
      [1] [[2]] 0 (by rw [cov_cache_key]; rfl)⟩

/-- Claim C6: whenever the fetch path runs (cache disabled, miss, or stale
entry) and the fetch/statistics computation fails, the function returns
mu = 0ⁿ and sigma = 0.04·Iₙ with n = len(symbols); the embedding being a
total function returning this value models that the except clause swallows
the error rather than raising to the caller. -/
theorem cov_fallback_on_failure
    (cache : CovCache) (now : ℚ) (symbols : List String) (use_cache : Bool)
    (hmiss : (if use_cache then cache_lookup (cov_cache_key symbols) cache else none) = none
      ∨ ∃ e, (if use_cache then cache_lookup (cov_cache_key symbols) cache else none)
          = some e ∧ is_stale 300 now e.ts = true) :
    get_expected_returns_and_covariance 300 cache now symbols use_cache none
      = ((List.replicate symbols.length 0, scaled_identity symbols.length (4 / 100)),
        cache, true) := by
  rcases hmiss with hmiss | ⟨e, hhit, hstale⟩
  · simp only [get_expected_returns_and_covariance, hmiss]
  · simp only [get_expected_returns_and_covariance, hhit, hstale, if_true]

/-- Witness for C6: empty cache, two symbols, failed fetch. -/
theorem cov_fallback_on_failure_witness :
    ((if true then cache_lookup (cov_cache_key ["A", "B"]) [] else none) = none
      ∨ ∃ e, (if true then cache_lookup (cov_cache_key ["A", "B"]) [] else none)
          = some e ∧ is_stale 300 (0 : ℚ) e.ts = true) ∧
    get_expected_returns_and_covariance 300 [] 0 ["A", "B"] true none
      = ((List.replicate (["A", "B"]).length 0,
          scaled_identity (["A", "B"]).length (4 / 100)), [], true) :=
  ⟨Or.inl rfl, cov_fallback_on_failure [] 0 ["A", "B"] true (Or.inl rfl)⟩

/-- Claim C9: on the fallback path nothing is stored — the cache state is
returned unchanged — storing happens exactly on the success path, and a
subsequent call with the same symbols (at any time no earlier than the
failed one) runs the fetch path again instead of serving the synthetic
values. -/
theorem cov_fallback_cache_unchanged
    (cache : CovCache) (now : ℚ) (symbols : List String) (use_cache : Bool)
    (hmiss : (if use_cache then cache_lookup (cov_cache_key symbols) cache else none) = none
      ∨ ∃ e, (if use_cache then cache_lookup (cov_cache_key symbols) cache else none)
          = some e ∧ is_stale 300 now e.ts = true) :
    (get_expected_returns_and_covariance 300 cache now symbols use_cache none).2.1
        = cache ∧
    (∀ (mu : List ℚ) (sigma : List (List ℚ)),
      (get_expected_returns_and_covariance 300 cache now symbols use_cache
          (some (mu, sigma))).2.1
        = (cov_cache_key symbols, ⟨mu, sigma, now⟩) :: cache) ∧
    (∀ (now' : ℚ) (computed : Option (List ℚ × List (List ℚ))), now ≤ now' →
      (get_expected_returns_and_covariance 300
        ((get_expected_returns_and_covariance 300 cache now symbols use_cache none).2.1)
        now' symbols use_cache computed).2.2 = true) := by
  have hfall := cov_fallback_on_failure cache now symbols use_cache hmiss
  refine ⟨by rw [hfall], ?_, ?_⟩
  · intro mu sigma
    rcases hmiss with hmiss | ⟨e, hhit, hstale⟩
    · simp only [get_expected_returns_and_covariance, hmiss]
    · simp only [get_expected_returns_and_covariance, hhit, hstale, if_true]
  · intro now' computed hle
    rw [hfall]
    have hmiss' : (if use_cache then cache_lookup (cov_cache_key symbols) cache else none)
        = none
      ∨ ∃ e, (if use_cache then cache_lookup (cov_cache_key symbols) cache else none)
          = some e ∧ is_stale 300 now' e.ts = true := by
      rcases hmiss with hmiss | ⟨e, hhit, hstale⟩
      · exact Or.inl hmiss
      · refine Or.inr ⟨e, hhit, ?_⟩
        rw [is_stale] at hstale ⊢
        have h1 : 300 < now - e.ts := of_decide_eq_true hstale
        exact decide_eq_true (by linarith)
    rcases hmiss' with hmiss' | ⟨e, hhit, hstale⟩
    · cases computed with
      | none => simp only [get_expected_returns_and_covariance, hmiss']
      | some p =>
          obtain ⟨m, s⟩ := p
          simp only [get_expected_returns_and_covariance, hmiss']
    · cases computed with
      | none => simp only [get_expected_returns_and_covariance, hhit, hstale, if_true]
      | some p =>
          obtain ⟨m, s⟩ := p
          simp only [get_expected_returns_and_covariance, hhit, hstale, if_true]

/-- Witness for C9: empty cache, one symbol. -/
theorem cov_fallback_cache_unchanged_witness :
    ((if true then cache_lookup (cov_cache_key ["A"]) [] else none) = none
      ∨ ∃ e, (if true then cache_lookup (cov_cache_key ["A"]) [] else none)
          = some e ∧ is_stale 300 (0 : ℚ) e.ts = true) ∧
    ((get_expected_returns_and_covariance 300 [] 0 ["A"] true none).2.1 = [] ∧
    (∀ (mu : List ℚ) (sigma : List (List ℚ)),
      (get_expected_returns_and_covariance 300 [] 0 ["A"] true (some (mu, sigma))).2.1
        = (cov_cache_key ["A"], ⟨mu, sigma, 0⟩) :: []) ∧
    (∀ (now' : ℚ) (computed : Option (List ℚ × List (List ℚ))), (0 : ℚ) ≤ now' →
      (get_expected_returns_and_covariance 300
        ((get_expected_returns_and_covariance 300 [] 0 ["A"] true none).2.1)
        now' ["A"] true computed).2.2 = true)) :=
  ⟨Or.inl rfl, cov_fallback_cache_unchanged [] 0 ["A"] true (Or.inl rfl)⟩

/-! ### app.api_optimize: objective gap -/

/-- Claim C8: the relative objective gap equals
(variational − exact) / |exact|, is absent (None) exactly when the exact
objective is 0 or the variational result is absent, and the concrete pair
(−0.02, −0.018) yields 0.10. -/
theorem objective_gap_spec (c : ℚ) (q : Option ℚ) :
    (objective_gap c q = none ↔ (c = 0 ∨ q = none)) ∧
    (∀ qv, q = some qv → c ≠ 0 → objective_gap c q = some ((qv - c) / |c|)) ∧
    objective_gap (-(2/100)) (some (-(18/1000))) = some (10/100) := by
  refine ⟨?_, ?_, ?_⟩
  · cases q with
    | none => simp [objective_gap]
    | some qv =>
        by_cases hc : c = 0
        · simp [objective_gap, hc]
        · simp [objective_gap, hc]
  · intro qv hq hc
    subst hq
    simp [objective_gap, hc]
  · rw [objective_gap]
    norm_num
    rw [show |(1 : ℚ)/50| = 1/50 from abs_of_pos (by norm_num)]
    norm_num

/-- Witness for C8 at the spec's concrete gap scenario. -/
theorem objective_gap_spec_witness :
    (objective_gap (-(2/100)) (some (-(18/1000))) = none
      ↔ ((-(2/100) : ℚ) = 0 ∨ (some (-(18/1000)) : Option ℚ) = none)) ∧
    (∀ qv, (some (-(18/1000)) : Option ℚ) = some qv → (-(2/100) : ℚ) ≠ 0 →
      objective_gap (-(2/100)) (some (-(18/1000)))
        = some ((qv - -(2/100)) / |(-(2/100) : ℚ)|)) ∧
    objective_gap (-(2/100)) (some (-(18/1000))) = some (10/100) :=
  objective_gap_spec (-(2/100)) (some (-(18/1000)))

/-! ### Lemmas about the PSD correction -/

/-- A Hermitian real matrix with non-negative eigenvalues is positive
semidefinite, via the spectral decomposition. -/
theorem posSemidef_of_eigenvalues_nonneg {n : ℕ} {A : Matrix (Fin n) (Fin n) ℝ}
    (hA : A.IsHermitian) (h : ∀ i, 0 ≤ hA.eigenvalues i) : A.PosSemidef := by
  have hD : (Matrix.diagonal (RCLike.ofReal ∘ hA.eigenvalues) :
      Matrix (Fin n) (Fin n) ℝ).PosSemidef := by
    rw [Matrix.posSemidef_diagonal_iff]
    intro i
    simpa [RCLike.ofReal_real_eq_id] using h i
  have hmul := hD.mul_mul_conjTranspose_same
    (hA.eigenvectorUnitary : Matrix (Fin n) (Fin n) ℝ)
  rw [← Matrix.star_eq_conjTranspose, ← hA.spectral_theorem] at hmul
  exact hmul

/-- Adding c·I to a Hermitian matrix shifts its spectral diagonal by c. -/
theorem add_smul_one_spectral {n : ℕ} {A : Matrix (Fin n) (Fin n) ℝ}
    (hA : A.IsHermitian) (c : ℝ) :
    A + c • 1 = (hA.eigenvectorUnitary : Matrix (Fin n) (Fin n) ℝ) *
      Matrix.diagonal (fun i => hA.eigenvalues i + c) *
      star (hA.eigenvectorUnitary : Matrix (Fin n) (Fin n) ℝ) := by
  have hU : (hA.eigenvectorUnitary : Matrix (Fin n) (Fin n) ℝ) *
      star (hA.eigenvectorUnitary : Matrix (Fin n) (Fin n) ℝ) = 1 :=
    unitary.coe_mul_star_self _
  have hsmul : (c • (1 : Matrix (Fin n) (Fin n) ℝ))
      = Matrix.diagonal (fun _ : Fin n => c) := by
    ext i j
    by_cases hij : i = j <;>
      simp [Matrix.one_apply, Matrix.diagonal_apply, hij]
  have hshift : (c • (1 : Matrix (Fin n) (Fin n) ℝ))
      = (hA.eigenvectorUnitary : Matrix (Fin n) (Fin n) ℝ) *
        (c • (1 : Matrix (Fin n) (Fin n) ℝ)) *
        star (hA.eigenvectorUnitary : Matrix (Fin n) (Fin n) ℝ) := by
    rw [Matrix.mul_smul, Matrix.mul_one, Matrix.smul_mul, hU]
  have hfun : (fun i => (RCLike.ofReal ∘ hA.eigenvalues) i + c)
      = (fun i => hA.eigenvalues i + c) := by
    funext i
    simp [RCLike.ofReal_real_eq_id, Function.comp]
  conv_lhs => rw [hA.spectral_theorem, hshift]
  rw [← Matrix.add_mul, ← Matrix.mul_add, hsmul, Matrix.diagonal_add, hfun]

/-- Casting a rationally-shifted matrix to the reals. -/
theorem map_add_smul_one {n : ℕ} (S : Matrix (Fin n) (Fin n) ℚ) (c : ℚ) :
    ((S + c • 1 : Matrix (Fin n) (Fin n) ℚ)).map ((↑) : ℚ → ℝ)
      = S.map ((↑) : ℚ → ℝ) + (c : ℝ) • 1 := by
  ext i j
  by_cases hij : i = j <;>
    simp [Matrix.map_apply, Matrix.add_apply, Matrix.smul_apply, Matrix.one_apply, hij]

/-- Claim C5: every covariance matrix produced by
get_expected_returns_and_covariance has minimum eigenvalue ≥ −1e-9.  On the
computed path, if min_eig (the true minimum eigenvalue of the annualized
covariance, obtained numerically in the source) is below 1e-8, the uniform
shift (1e-8 − min_eig)·I is added and every eigenvalue of the result is
non-negative (in fact ≥ 1e-8); with no shift needed the eigenvalues were
already ≥ 1e-8.  On the fallback path the returned sigma = 0.04·I
(scaled_identity) is positive definite. -/
theorem correct_sigma_psd {n : ℕ}
    (S : Matrix (Fin n) (Fin n) ℚ) (min_eig : ℚ)
    (hA : (S.map ((↑) : ℚ → ℝ)).IsHermitian)
    (hlb : ∀ i, (min_eig : ℝ) ≤ hA.eigenvalues i)
    (hattain : ∃ i, hA.eigenvalues i = (min_eig : ℝ))
    (hC : ((correct_sigma min_eig S).map ((↑) : ℚ → ℝ)).IsHermitian) :
    (∀ i, -(1/10^9 : ℝ) ≤ hC.eigenvalues i) ∧
    ∀ m : ℕ, (Matrix.of (fun i j : Fin m =>
        ((((scaled_identity m (4/100)).getD i.val []).getD j.val 0 : ℚ) : ℝ))).PosDef := by
  have hpsd : ((correct_sigma min_eig S).map ((↑) : ℚ → ℝ)).PosSemidef := by
    by_cases hcond : min_eig < 1 / 10 ^ 8
    · rw [correct_sigma, if_pos hcond, map_add_smul_one,
        add_smul_one_spectral hA ((1 / 10 ^ 8 - min_eig : ℚ) : ℝ)]
      have hD : (Matrix.diagonal
          (fun i => hA.eigenvalues i + ((1 / 10 ^ 8 - min_eig : ℚ) : ℝ)) :
          Matrix (Fin n) (Fin n) ℝ).PosSemidef := by
        rw [Matrix.posSemidef_diagonal_iff]
        intro i
        have h1 := hlb i
        have h2 : ((min_eig : ℝ)) + ((1 / 10 ^ 8 - min_eig : ℚ) : ℝ) = ((1 : ℝ) / 10 ^ 8) := by
          push_cast
          ring
        nlinarith [h1, h2]
      have hmul := hD.mul_mul_conjTranspose_same
        (hA.eigenvectorUnitary : Matrix (Fin n) (Fin n) ℝ)
      rw [← Matrix.star_eq_conjTranspose] at hmul
      exact hmul
    · rw [correct_sigma, if_neg hcond]
      push_neg at hcond
      refine posSemidef_of_eigenvalues_nonneg hA (fun i => ?_)
      have h1 : ((1 : ℚ) / 10 ^ 8 : ℝ) ≤ (min_eig : ℝ) := by exact_mod_cast hcond
      have h2 := hlb i
      nlinarith [h1, h2]
  refine ⟨fun i => le_trans (by norm_num) (hpsd.eigenvalues_nonneg i), ?_⟩
  intro m
  have hdiag : (Matrix.of (fun i j : Fin m =>
        ((((scaled_identity m (4/100)).getD i.val []).getD j.val 0 : ℚ) : ℝ)))
      = Matrix.diagonal (fun _ : Fin m => ((4/100 : ℚ) : ℝ)) := by
    ext i j
    have hrow : (scaled_identity m (4/100)).getD i.val []
        = (List.range m).map (fun j => if i.val = j then (4/100 : ℚ) else 0) := by
      rw [scaled_identity]
      have hi : i.val < ((List.range m).map (fun a => (List.range m).map
          (fun j => if a = j then (4/100 : ℚ) else 0))).length := by
        simp [i.isLt]
      rw [List.getD_eq_getElem _ _ hi, List.getElem_map, List.getElem_range]
    rw [Matrix.of_apply, hrow]
    have hj : j.val < ((List.range m).map
        (fun k => if i.val = k then (4/100 : ℚ) else 0)).length := by
      simp [j.isLt]
    rw [List.getD_eq_getElem _ _ hj, List.getElem_map, List.getElem_range,
      Matrix.diagonal_apply]
    by_cases hij : i = j
    · simp [hij]
    · have hval : i.val ≠ j.val := fun hv => hij (Fin.ext hv)
      simp [hij, hval]
  rw [hdiag, Matrix.posDef_diagonal_iff]
  intro i
  norm_num

/-- Hermiticity of the concrete 1×1 input used by the C5 witness. -/
theorem c5_hermitian_five : ((!![(5 : ℚ)]).map ((↑) : ℚ → ℝ)).IsHermitian := by
  ext i j
  fin_cases i
  fin_cases j
  simp [Matrix.conjTranspose_apply]

/-- Hermiticity of the corrected matrix for the C5 witness (no shift is
applied since 5 ≥ 1e-8). -/
theorem c5_hermitian_corrected :
    ((correct_sigma 5 !![(5 : ℚ)]).map ((↑) : ℚ → ℝ)).IsHermitian := by
  rw [correct_sigma, if_neg (by norm_num)]
  ext i j
  fin_cases i
  fin_cases j
  simp [Matrix.conjTranspose_apply]

/-- The single eigenvalue of the 1×1 witness matrix is its entry. -/
theorem c5_eigenvalue_five : c5_hermitian_five.eigenvalues 0 = 5 := by
  have hd := c5_hermitian_five.det_eq_prod_eigenvalues
  rw [Matrix.det_fin_one, Fin.prod_univ_one] at hd
  have hentry : ((!![(5 : ℚ)]).map ((↑) : ℚ → ℝ)) 0 0 = (5 : ℝ) := by
    simp [Matrix.map_apply]
  rw [hentry] at hd
  have := hd.symm
  simpa [RCLike.ofReal_real_eq_id] using this

/-- Witness for C5 at the 1×1 matrix [[5]] with min_eig = 5. -/
theorem correct_sigma_psd_witness :
    ((∀ i, ((5 : ℚ) : ℝ) ≤ c5_hermitian_five.eigenvalues i) ∧
      (∃ i, c5_hermitian_five.eigenvalues i = ((5 : ℚ) : ℝ))) ∧
    ((∀ i, -(1/10^9 : ℝ) ≤ c5_hermitian_corrected.eigenvalues i) ∧
      ∀ m : ℕ, (Matrix.of (fun i j : Fin m =>
        ((((scaled_identity m (4/100)).getD i.val []).getD j.val 0 : ℚ) : ℝ))).PosDef) := by
  have hlb : ∀ i, ((5 : ℚ) : ℝ) ≤ c5_hermitian_five.eigenvalues i := by
    intro i
    have h0 : i = 0 := Subsingleton.elim i 0
    rw [h0, c5_eigenvalue_five]
    norm_num
  have hat : ∃ i, c5_hermitian_five.eigenvalues i = ((5 : ℚ) : ℝ) := by
    refine ⟨0, ?_⟩
    rw [c5_eigenvalue_five]
    norm_num
  exact ⟨⟨hlb, hat⟩,
    correct_sigma_psd !![(5 : ℚ)] 5 c5_hermitian_five hlb hat c5_hermitian_corrected⟩

end QuantumPortfolio
